import Mathlib

/-!
Verification of the request-routing core of the raw key-value client
(store/tikv/rawkv.go and store/tikv/delete_range.go): byte-string key order,
the dispatcher retry loop, single-key operations, Scan, DeleteRange, and the
long-running delete-range task.
-/

namespace TikvRawkv

/-- Keys and values are Go byte slices, modelled as lists of byte values. -/
abbrev Key := List Nat

/-- Go bytes.Compare: lexicographic comparison of byte slices, where a proper
prefix is smaller than the longer slice. -/
def bytesCompare : Key → Key → Ordering
  | [], [] => .eq
  | [], _ :: _ => .lt
  | _ :: _, [] => .gt
  | a :: as, b :: bs => if a < b then .lt else if b < a then .gt else bytesCompare as bs

/-- Strict byte-lexicographic order, bytesCompare answering lt. -/
def keyLt (a b : Key) : Prop := bytesCompare a b = .lt

/-- Non-strict byte-lexicographic order, bytesCompare not answering gt. -/
def keyLe (a b : Key) : Prop := bytesCompare a b ≠ .gt

instance (a b : Key) : Decidable (keyLt a b) := by unfold keyLt; infer_instance

instance (a b : Key) : Decidable (keyLe a b) := by unfold keyLe; infer_instance

theorem bytesCompare_self (a : Key) : bytesCompare a a = .eq := by
  induction a with
  | nil => rfl
  | cons x xs ih => simp [bytesCompare, ih]

theorem bytesCompare_eq_iff {a b : Key} : bytesCompare a b = .eq ↔ a = b := by
  induction a generalizing b with
  | nil => cases b <;> simp [bytesCompare]
  | cons x xs ih =>
    cases b with
    | nil => simp [bytesCompare]
    | cons y ys =>
      simp only [bytesCompare]
      split_ifs with h1 h2
      · constructor
        · intro h; exact absurd h (by simp)
        · intro h; injection h with hx _; exact absurd hx (by omega)
      · constructor
        · intro h; exact absurd h (by simp)
        · intro h; injection h with hx _; exact absurd hx (by omega)
      · have hxy : x = y := by omega
        subst hxy
        simp [ih]

theorem bytesCompare_swap (a b : Key) : bytesCompare b a = (bytesCompare a b).swap := by
  induction a generalizing b with
  | nil => cases b <;> rfl
  | cons x xs ih =>
    cases b with
    | nil => rfl
    | cons y ys =>
      simp only [bytesCompare]
      rcases lt_trichotomy x y with h | h | h
      · simp [h, lt_asymm h, Ordering.swap]
      · subst h
        simp [lt_irrefl, ih ys, Ordering.swap]
      · simp [h, lt_asymm h, Ordering.swap]

theorem bytesCompare_gt_iff {a b : Key} : bytesCompare a b = .gt ↔ keyLt b a := by
  unfold keyLt
  rw [bytesCompare_swap a b]
  cases h : bytesCompare a b <;> simp [Ordering.swap]

theorem keyLt_trans : ∀ (a b c : Key), keyLt a b → keyLt b c → keyLt a c := by
  intro a
  induction a with
  | nil =>
    intro b c hab hbc
    cases c with
    | nil =>
      cases b with
      | nil => exact hab
      | cons y ys => exact absurd hbc (by simp [keyLt, bytesCompare])
    | cons z zs => simp [keyLt, bytesCompare]
  | cons x xs ih =>
    intro b c hab hbc
    cases b with
    | nil => exact absurd hab (by simp [keyLt, bytesCompare])
    | cons y ys =>
      cases c with
      | nil => exact absurd hbc (by simp [keyLt, bytesCompare])
      | cons z zs =>
        simp only [keyLt, bytesCompare] at hab hbc ⊢
        split_ifs at hab hbc ⊢ <;>
          first
            | rfl
            | omega
            | exact Ordering.noConfusion hab
            | exact Ordering.noConfusion hbc
            | exact ih ys zs hab hbc

theorem keyLe_iff {a b : Key} : keyLe a b ↔ keyLt a b ∨ a = b := by
  constructor
  · intro hne
    rcases h : bytesCompare a b with _ | _ | _
    · exact Or.inl h
    · exact Or.inr (bytesCompare_eq_iff.mp h)
    · exact absurd h hne
  · intro hor
    rcases hor with h | h
    · unfold keyLe; rw [h]; simp
    · unfold keyLe; rw [h, bytesCompare_self]; simp

theorem keyLe_refl (a : Key) : keyLe a a := by
  unfold keyLe; rw [bytesCompare_self]; simp

theorem keyLt_irrefl (a : Key) : ¬ keyLt a a := by
  unfold keyLt; rw [bytesCompare_self]; simp

theorem keyLt_asymm {a b : Key} (h : keyLt a b) : ¬ keyLt b a :=
  fun h2 => keyLt_irrefl a (keyLt_trans a b a h h2)

theorem keyLt_ne {a b : Key} (h : keyLt a b) : a ≠ b :=
  fun he => keyLt_irrefl a (he ▸ h)

theorem keyLe_of_keyLt {a b : Key} (h : keyLt a b) : keyLe a b :=
  keyLe_iff.mpr (Or.inl h)

theorem keyLe_trans {a b c : Key} (hab : keyLe a b) (hbc : keyLe b c) : keyLe a c := by
  rcases keyLe_iff.mp hab with h | h
  · rcases keyLe_iff.mp hbc with h2 | h2
    · exact keyLe_of_keyLt (keyLt_trans a b c h h2)
    · exact h2 ▸ keyLe_of_keyLt h
  · exact h ▸ hbc

theorem keyLt_of_keyLe_of_keyLt {a b c : Key} (hab : keyLe a b) (hbc : keyLt b c) :
    keyLt a c := by
  rcases keyLe_iff.mp hab with h | h
  · exact keyLt_trans a b c h hbc
  · exact h ▸ hbc

theorem keyLt_of_keyLt_of_keyLe {a b c : Key} (hab : keyLt a b) (hbc : keyLe b c) :
    keyLt a c := by
  rcases keyLe_iff.mp hbc with h | h
  · exact keyLt_trans a b c hab h
  · exact h ▸ hab

theorem keyLe_antisymm {a b : Key} (hab : keyLe a b) (hba : keyLe b a) : a = b := by
  rcases keyLe_iff.mp hab with h | h
  · rcases keyLe_iff.mp hba with h2 | h2
    · exact absurd h2 (keyLt_asymm h)
    · exact h2.symm
  · exact h

theorem not_keyLt_iff {a b : Key} : ¬ keyLt a b ↔ keyLe b a := by
  constructor
  · intro h
    rcases hc : bytesCompare b a with _ | _ | _
    · simp [keyLe, hc]
    · simp [keyLe, hc]
    · exact absurd (bytesCompare_gt_iff.mp hc) h
  · intro h h2
    rcases keyLe_iff.mp h with h3 | h3
    · exact keyLt_asymm h3 h2
    · exact keyLt_irrefl a (h3 ▸ h2)

theorem keyLt_or_keyLe (a b : Key) : keyLt a b ∨ keyLe b a := by
  by_cases h : keyLt a b
  · exact Or.inl h
  · exact Or.inr (not_keyLt_iff.mp h)

theorem nil_keyLe (a : Key) : keyLe [] a := by
  cases a <;> simp [keyLe, bytesCompare]

theorem nil_keyLt_of_ne {a : Key} (h : a ≠ []) : keyLt [] a := by
  cases a with
  | nil => exact absurd rfl h
  | cons x xs => simp [keyLt, bytesCompare]

/-! Shard locations and the two sub-range clamps. -/

/-- A shard location returned by the locator: the key range [startKey, endKey) of
the shard, endKey = [] meaning unbounded above. Mirrors KeyLocation. -/
structure KeyLocation where
  startKey : Key
  endKey : Key
deriving DecidableEq

/-- Modelled from the spec: KeyLocation.Contains, which lives in the shard-locator
code (region_cache.go) that is not under src/. A shard contains a key iff the
shard startKey is at or below it and it is strictly below the shard endKey, an
empty endKey meaning unbounded above. -/
def KeyLocation.Contains (l : KeyLocation) (key : Key) : Bool :=
  decide (keyLe l.startKey key) && (decide (keyLt key l.endKey) || l.endKey.isEmpty)

/-- The sub-range end computed by DeleteRangeTask.Execute (delete_range.go:67-70):
the task endKey when the located shard contains it, else the shard endKey. -/
def taskClamp (loc : KeyLocation) (rangeEndKey : Key) : Key :=
  if loc.Contains rangeEndKey then rangeEndKey else loc.endKey

/-- The sub-range end computed by RawKVClient.sendDeleteRangeReq (rawkv.go:261-264):
the shard endKey when it is non-empty and strictly below endKey, else endKey. -/
def rawClamp (loc : KeyLocation) (endKey : Key) : Key :=
  if 0 < loc.endKey.length ∧ keyLt loc.endKey endKey then loc.endKey else endKey

/-- The clamp rule as worded in section 4.4 of the spec: byte-lexicographic min of
endKey and the shard end, where an empty shard end means unbounded, so endKey
wins. -/
def specMinEnd (shardEnd endKey : Key) : Key :=
  if shardEnd = [] then endKey else if keyLt shardEnd endKey then shardEnd else endKey

/-- Byte-lexicographic max of two keys. -/
def keyMax (a b : Key) : Key := if keyLt a b then b else a

/-! Requests, responses and the collaborator environment. -/

/-- The request bodies built by the client, mirroring tikvrpc.Request with the
command payloads used by this code. -/
inductive Request where
  | rawGet (key : Key)
  | rawPut (key value : Key)
  | rawDelete (key : Key)
  | rawScan (startKey : Key) (limit : Nat)
  | rawDeleteRange (startKey endKey : Key)
  | deleteRange (startKey endKey : Key)
deriving DecidableEq

/-- kvrpcpb.RawGetResponse: an application error string (empty when unset) and the
value bytes. -/
structure RawGetResponse where
  error : String
  value : Key
deriving DecidableEq

/-- kvrpcpb.RawPutResponse. -/
structure RawPutResponse where
  error : String
deriving DecidableEq

/-- kvrpcpb.RawDeleteResponse. -/
structure RawDeleteResponse where
  error : String
deriving DecidableEq

/-- kvrpcpb.RawScanResponse: the key/value pairs returned by the shard. -/
structure RawScanResponse where
  kvs : List (Key × Key)
deriving DecidableEq

/-- kvrpcpb.RawDeleteRangeResponse. -/
structure RawDeleteRangeResponse where
  error : String
deriving DecidableEq

/-- kvrpcpb.DeleteRangeResponse, used by the long-running task. -/
structure DeleteRangeResponse where
  error : String
deriving DecidableEq

/-- tikvrpc.Response: the region (shard-ownership) error, if any, and the
command-specific body, absent when the response is structurally malformed. -/
structure Response where
  regionErr : Option String := none
  rawGet : Option RawGetResponse := none
  rawPut : Option RawPutResponse := none
  rawDelete : Option RawDeleteResponse := none
  rawScan : Option RawScanResponse := none
  rawDeleteRange : Option RawDeleteRangeResponse := none
  deleteRange : Option DeleteRangeResponse := none
deriving DecidableEq

/-- Modelled from the spec: ErrBodyMissing, the protocol-violation error raised
when an expected response sub-message is absent; defined outside src/. -/
def ErrBodyMissing : String := "response body is missing"

/-- Observable interactions with the collaborators, recorded so the theorems can
speak about locates, network sends and retry-budget signals. -/
inductive Event where
  | locate (key : Key)
  | send (req : Request)
  | backoff
deriving DecidableEq

/-- Modelled from the spec: one attempt worth of collaborator behaviour — what the
Shard Locator answers for a key and what the transport answers for a request
(RegionCache and the rpc client are not under src/). -/
structure Attempt where
  locate : Key → Except String KeyLocation
  send : Request → Except String Response

/-- Modelled from the spec: the collaborator behaviour of successive attempts of
one client call, indexed by attempt number. -/
abbrev Env := Nat → Attempt

/-! The dispatcher and the single-key operations. -/

/-- RawKVClient.sendReq (rawkv.go:221-246). The per-call Backoffer (not under
src/) is modelled from the spec as the count of backoffs the retry budget still
permits; a backoff past the budget returns the terminal error carrying the
shard-error detail. The attempt index i selects the environment entry; returns
the result, the next attempt index, and the trace of collaborator interactions. -/
def sendReq (env : Env) (key : Key) (req : Request) (i : Nat) (budget : Nat) :
    Except String (Response × KeyLocation) × Nat × List Event :=
  match (env i).locate key with
  | .error e => (.error e, i + 1, [.locate key])
  | .ok loc =>
    match (env i).send req with
    | .error e => (.error e, i + 1, [.locate key, .send req])
    | .ok resp =>
      match resp.regionErr with
      | some rerr =>
        match budget with
        | 0 => (.error rerr, i + 1, [.locate key, .send req, .backoff])
        | b + 1 =>
          let r := sendReq env key req (i + 1) b
          (r.1, r.2.1, .locate key :: .send req :: .backoff :: r.2.2)
      | none => (.ok (resp, loc), i + 1, [.locate key, .send req])

/-- RawKVClient.Get (rawkv.go:75-100): returns none together with no error when
the key does not exist. -/
def Get (env : Env) (budget : Nat) (key : Key) : Except String (Option Key) × List Event :=
  match sendReq env key (.rawGet key) 0 budget with
  | (.error e, _, tr) => (.error e, tr)
  | (.ok (resp, _), _, tr) =>
    match resp.rawGet with
    | none => (.error ErrBodyMissing, tr)
    | some cmdResp =>
      if cmdResp.error ≠ "" then (.error cmdResp.error, tr)
      else if cmdResp.value.length = 0 then (.ok none, tr)
      else (.ok (some cmdResp.value), tr)

/-- RawKVClient.Put (rawkv.go:103-132): rejects an empty value locally, before
any collaborator interaction. -/
def Put (env : Env) (budget : Nat) (key value : Key) : Except String Unit × List Event :=
  if value.length = 0 then (.error "empty value is not supported", [])
  else
    match sendReq env key (.rawPut key value) 0 budget with
    | (.error e, _, tr) => (.error e, tr)
    | (.ok (resp, _), _, tr) =>
      match resp.rawPut with
      | none => (.error ErrBodyMissing, tr)
      | some cmdResp =>
        if cmdResp.error ≠ "" then (.error cmdResp.error, tr) else (.ok (), tr)

/-- RawKVClient.Delete (rawkv.go:135-157). -/
def Delete (env : Env) (budget : Nat) (key : Key) : Except String Unit × List Event :=
  match sendReq env key (.rawDelete key) 0 budget with
  | (.error e, _, tr) => (.error e, tr)
  | (.ok (resp, _), _, tr) =>
    match resp.rawDelete with
    | none => (.error ErrBodyMissing, tr)
    | some cmdResp =>
      if cmdResp.error ≠ "" then (.error cmdResp.error, tr) else (.ok (), tr)

/-! Scan. -/

/-- MaxRawKVScanLimit (rawkv.go:31), a Go int. -/
def MaxRawKVScanLimit : Int := 10240

/-- The message of ErrMaxScanLimitExceeded (rawkv.go:33). -/
def ErrMaxScanLimitExceeded : String := "limit should be less than MaxRawKVScanLimit"

/-- The loop of RawKVClient.Scan (rawkv.go:169-193) with explicit fuel; none
means the fuel ran out (the Go loop carries no explicit bound). The scan request
limit field is a uint32, hence the reduction mod 2 ^ 32 of the Go int
subtraction. -/
def scanLoop (env : Env) (budget : Nat) (limit : Int) :
    Nat → Nat → Key → List Key → List Key →
    Option (Except String (List Key × List Key) × List Event)
  | 0, _, _, _, _ => none
  | fuel + 1, i, startKey, keys, values =>
    if (keys.length : Int) < limit then
      let req := Request.rawScan startKey (((limit - (keys.length : Int)) % (2 ^ 32 : Int)).toNat)
      match sendReq env startKey req i budget with
      | (.error e, _, tr) => some (.error e, tr)
      | (.ok (resp, loc), i2, tr) =>
        match resp.rawScan with
        | none => some (.error ErrBodyMissing, tr)
        | some cmdResp =>
          let keys2 := keys ++ cmdResp.kvs.map Prod.fst
          let values2 := values ++ cmdResp.kvs.map Prod.snd
          let startKey2 := loc.endKey
          if startKey2.length = 0 then some (.ok (keys2, values2), tr)
          else
            match scanLoop env budget limit fuel i2 startKey2 keys2 values2 with
            | none => none
            | some (res, tr2) => some (res, tr ++ tr2)
    else some (.ok (keys, values), [])

/-- RawKVClient.Scan (rawkv.go:161-195): the limit validation, then the loop. -/
def Scan (env : Env) (budget fuel : Nat) (startKey : Key) (limit : Int) :
    Option (Except String (List Key × List Key) × List Event) :=
  if MaxRawKVScanLimit < limit then some (.error ErrMaxScanLimitExceeded, [])
  else scanLoop env budget limit fuel 0 startKey [] []

/-! DeleteRange. -/

/-- RawKVClient.sendDeleteRangeReq (rawkv.go:252-291): like sendReq, but
re-clamps the sub-range after every locate and returns the actual end key of
the sub-request it sent. -/
def sendDeleteRangeReq (env : Env) (endKey : Key) (startKey : Key) (i : Nat) (budget : Nat) :
    Except String (Response × Key) × Nat × List Event :=
  match (env i).locate startKey with
  | .error e => (.error e, i + 1, [.locate startKey])
  | .ok loc =>
    let actualEndKey := rawClamp loc endKey
    let req := Request.rawDeleteRange startKey actualEndKey
    match (env i).send req with
    | .error e => (.error e, i + 1, [.locate startKey, .send req])
    | .ok resp =>
      match resp.regionErr with
      | some rerr =>
        match budget with
        | 0 => (.error rerr, i + 1, [.locate startKey, .send req, .backoff])
        | b + 1 =>
          let r := sendDeleteRangeReq env endKey startKey (i + 1) b
          (r.1, r.2.1, .locate startKey :: .send req :: .backoff :: r.2.2)
      | none => (.ok (resp, actualEndKey), i + 1, [.locate startKey, .send req])

/-- RawKVClient.DeleteRange (rawkv.go:198-219) with explicit fuel for the loop
over shards; as in the Go code, a fresh Backoffer of capacity budget is used by
each sendDeleteRangeReq call. -/
def DeleteRange (env : Env) (budget : Nat) :
    Nat → Nat → Key → Key → Option (Except String Unit × List Event)
  | 0, _, _, _ => none
  | fuel + 1, i, startKey, endKey =>
    if startKey = endKey then some (.ok (), [])
    else
      match sendDeleteRangeReq env endKey startKey i budget with
      | (.error e, _, tr) => some (.error e, tr)
      | (.ok (resp, actualEndKey), i2, tr) =>
        match resp.rawDeleteRange with
        | none => some (.error ErrBodyMissing, tr)
        | some cmdResp =>
          if cmdResp.error ≠ "" then some (.error cmdResp.error, tr)
          else
            match DeleteRange env budget fuel i2 actualEndKey endKey with
            | none => none
            | some (res, tr2) => some (res, tr ++ tr2)

/-! The long-running delete-range task. -/

/-- DeleteRangeTask (delete_range.go:28-36); the store, context and Backoffer
fields are modelled through the environment passed to Execute. -/
structure DeleteRangeTask where
  regions : Nat
  canceled : Bool
  startKey : Key
  endKey : Key
deriving DecidableEq

/-- NewDeleteRangeTask (delete_range.go:39-49). -/
def NewDeleteRangeTask (startKey endKey : Key) : DeleteRangeTask :=
  { regions := 0, canceled := false, startKey := startKey, endKey := endKey }

/-- Modelled from the spec: one loop pass of the environment of Execute — whether
the cancellation signal has fired at this pass, plus the locator and transport
behaviour (the context, RegionCache and Backoffer are not under src/). -/
structure TaskStep where
  ctxDone : Bool
  att : Attempt

/-- Modelled from the spec: the environment of a whole Execute run, indexed by
loop pass. -/
abbrev TaskEnv := Nat → TaskStep

/-- The loop of DeleteRangeTask.Execute (delete_range.go:52-110), acting on the
receiver copy t (Go passes the receiver by value). Returns the error result
together with the final state of that copy; budget models the task-wide
Backoffer t.bo, fuel bounds the loop. -/
def executeLoop (env : TaskEnv) (rangeEndKey : Key) :
    Nat → Nat → Nat → DeleteRangeTask → Key →
    Option (Except String Unit × DeleteRangeTask)
  | 0, _, _, _, _ => none
  | fuel + 1, i, budget, t, startKey =>
    if (env i).ctxDone then some (.ok (), { t with canceled := true })
    else
      match (env i).att.locate startKey with
      | .error e => some (.error e, t)
      | .ok loc =>
        let endKey := taskClamp loc rangeEndKey
        match (env i).att.send (.deleteRange startKey endKey) with
        | .error e => some (.error e, t)
        | .ok resp =>
          match resp.regionErr with
          | some rerr =>
            match budget with
            | 0 => some (.error rerr, t)
            | b + 1 => executeLoop env rangeEndKey fuel (i + 1) b t startKey
          | none =>
            match resp.deleteRange with
            | none => some (.error ErrBodyMissing, t)
            | some cmdResp =>
              if cmdResp.error ≠ "" then
                some (.error ("unexpected delete range err: " ++ cmdResp.error), t)
              else
                let t2 := { t with regions := t.regions + 1 }
                if endKey = rangeEndKey then some (.ok (), t2)
                else executeLoop env rangeEndKey fuel (i + 1) budget t2 endKey

/-- DeleteRangeTask.Execute (delete_range.go:52): the receiver is a copy, so the
mutations of regions and canceled happen on that copy and only the error is
returned to the caller; the task value the caller holds is left unchanged. -/
def DeleteRangeTask.Execute (env : TaskEnv) (fuel budget : Nat) (t : DeleteRangeTask) :
    Option (Except String Unit) :=
  (executeLoop env t.endKey fuel 0 budget t t.startKey).map Prod.fst

/-- DeleteRangeTask.Regions (delete_range.go:113-115). -/
def DeleteRangeTask.Regions (t : DeleteRangeTask) : Nat := t.regions

/-- DeleteRangeTask.IsCanceled (delete_range.go:118-120). -/
def DeleteRangeTask.IsCanceled (t : DeleteRangeTask) : Bool := t.canceled

/-! A locator serving a fixed tiling of the keyspace, and a store that answers
every request, used to settle the range-coverage and scan-ordering claims. -/

/-- Modelled from the spec: the Shard Locator over a fixed tiling of the
keyspace. bs lists the interior shard boundaries in strictly increasing byte
order, each non-empty; the shards are [[], b1), [b1, b2), ..., [bn, []), the
final empty end meaning unbounded. locateFrom walks the boundaries, s being the
start of the shard under consideration. -/
def locateFrom (k : Key) : Key → List Key → KeyLocation
  | s, [] => ⟨s, []⟩
  | s, b :: bs => if keyLt k b then ⟨s, b⟩ else locateFrom k b bs

/-- Modelled from the spec: RegionCache.LocateKey over the tiling bs. -/
def locateKey (bs : List Key) (k : Key) : KeyLocation := locateFrom k [] bs

/-- Well-formed tiling: interior boundaries strictly increasing and non-empty. -/
def WFLayout (bs : List Key) : Prop := bs.Pairwise keyLt ∧ ∀ b ∈ bs, b ≠ []

instance (bs : List Key) : Decidable (WFLayout bs) := by
  unfold WFLayout; infer_instance

/-- Modelled from the spec: a well-behaved store serving a scan request from a
fixed association list sorted by key — the pairs at or after the scan start that
the shard owning the start key holds, at most the requested count, in key
order. -/
def shardScanPairs (bs : List Key) (store : List (Key × Key)) (s : Key) (n : Nat) :
    List (Key × Key) :=
  let loc := locateKey bs s
  (store.filter fun p =>
    decide (keyLe s p.1) && (loc.endKey.isEmpty || decide (keyLt p.1 loc.endKey))).take n

/-- Modelled from the spec: collaborators that never fail — the locator serves
the tiling bs, the transport delivers, and the store acknowledges every request
(scans answered from store, no shard-ownership errors, no application errors). -/
def honestAttempt (bs : List Key) (store : List (Key × Key)) : Attempt where
  locate := fun k => .ok (locateKey bs k)
  send := fun req =>
    match req with
    | .rawGet _ => .ok { rawGet := some ⟨"", []⟩ }
    | .rawPut _ _ => .ok { rawPut := some ⟨""⟩ }
    | .rawDelete _ => .ok { rawDelete := some ⟨""⟩ }
    | .rawScan s n => .ok { rawScan := some ⟨shardScanPairs bs store s n⟩ }
    | .rawDeleteRange _ _ => .ok { rawDeleteRange := some ⟨""⟩ }
    | .deleteRange _ _ => .ok { deleteRange := some ⟨""⟩ }

/-- Modelled from the spec: the honest environment, identical at every attempt. -/
def honestEnv (bs : List Key) (store : List (Key × Key)) : Env :=
  fun _ => honestAttempt bs store

/-- The number of boundaries strictly above a key: the termination measure of the
shard-walking loops. -/
def cntAbove (k : Key) (bs : List Key) : Nat :=
  (bs.filter fun b => decide (keyLt k b)).length

theorem locateFrom_startKey_le {k : Key} :
    ∀ (bs : List Key) (s : Key), keyLe s k → keyLe (locateFrom k s bs).startKey k := by
  intro bs
  induction bs with
  | nil => intro s hs; exact hs
  | cons b rest ih =>
    intro s hs
    by_cases h : keyLt k b
    · simp only [locateFrom, if_pos h]; exact hs
    · simp only [locateFrom, if_neg h]
      exact ih b (not_keyLt_iff.mp h)

theorem locateKey_startKey_le (bs : List Key) (k : Key) :
    keyLe (locateKey bs k).startKey k :=
  locateFrom_startKey_le bs [] (nil_keyLe k)

theorem locateFrom_endKey {k : Key} :
    ∀ (bs : List Key) (s : Key),
      (locateFrom k s bs).endKey = [] ∨
        (keyLt k (locateFrom k s bs).endKey ∧ (locateFrom k s bs).endKey ∈ bs) := by
  intro bs
  induction bs with
  | nil => intro s; exact Or.inl rfl
  | cons b rest ih =>
    intro s
    by_cases h : keyLt k b
    · simp only [locateFrom, if_pos h]
      exact Or.inr ⟨h, List.mem_cons_self b rest⟩
    · simp only [locateFrom, if_neg h]
      rcases ih b with h2 | ⟨h2, h3⟩
      · exact Or.inl h2
      · exact Or.inr ⟨h2, List.mem_cons_of_mem b h3⟩

theorem locateKey_endKey (bs : List Key) (k : Key) :
    (locateKey bs k).endKey = [] ∨
      (keyLt k (locateKey bs k).endKey ∧ (locateKey bs k).endKey ∈ bs) :=
  locateFrom_endKey bs []

theorem locateFrom_mem_startKey {b : Key} :
    ∀ (bs : List Key) (s : Key), bs.Pairwise keyLt → b ∈ bs →
      (locateFrom b s bs).startKey = b := by
  intro bs
  induction bs with
  | nil => intro s _ hmem; exact absurd hmem (List.not_mem_nil b)
  | cons c rest ih =>
    intro s hpw hmem
    rcases List.mem_cons.mp hmem with h | h
    · subst h
      simp only [locateFrom, if_neg (keyLt_irrefl b)]
      cases rest with
      | nil => rfl
      | cons d rest2 =>
        have hbd : keyLt b d := (List.pairwise_cons.mp hpw).1 d (List.mem_cons_self d rest2)
        simp only [locateFrom, if_pos hbd]
    · have hcb : keyLt c b := (List.pairwise_cons.mp hpw).1 b h
      simp only [locateFrom, if_neg (keyLt_asymm hcb)]
      exact ih c (List.pairwise_cons.mp hpw).2 h

theorem locateKey_mem_startKey {bs : List Key} {b : Key} (hwf : WFLayout bs)
    (hmem : b ∈ bs) : (locateKey bs b).startKey = b :=
  locateFrom_mem_startKey bs [] hwf.1 hmem

theorem cntAbove_mono {a b : Key} (hab : keyLe a b) :
    ∀ bs : List Key, cntAbove b bs ≤ cntAbove a bs := by
  intro bs
  induction bs with
  | nil => exact Nat.le_refl 0
  | cons c rest ih =>
    by_cases h : keyLt b c
    · have h2 : keyLt a c := keyLt_of_keyLe_of_keyLt hab h
      simp only [cntAbove, List.filter_cons, decide_eq_true h, decide_eq_true h2,
        if_true, List.length_cons]
      exact Nat.succ_le_succ ih
    · simp only [cntAbove, List.filter_cons, decide_eq_false h, if_false]
      by_cases h2 : keyLt a c
      · simp only [decide_eq_true h2, if_true, List.length_cons]
        exact Nat.le_succ_of_le ih
      · simp only [decide_eq_false h2, if_false]
        exact ih

theorem cntAbove_lt {k e : Key} (hke : keyLt k e) :
    ∀ bs : List Key, e ∈ bs → cntAbove e bs < cntAbove k bs := by
  intro bs
  induction bs with
  | nil => intro hmem; exact absurd hmem (List.not_mem_nil e)
  | cons c rest ih =>
    intro hmem
    rcases List.mem_cons.mp hmem with h | h
    · subst h
      simp only [cntAbove, List.filter_cons, decide_eq_false (keyLt_irrefl e),
        decide_eq_true hke, if_true, if_false, List.length_cons]
      exact Nat.lt_succ_of_le (cntAbove_mono (keyLe_of_keyLt hke) rest)
    · have hlt := ih h
      by_cases h2 : keyLt e c
      · have h3 : keyLt k c := keyLt_trans k e c hke h2
        simp only [cntAbove, List.filter_cons, decide_eq_true h2, decide_eq_true h3,
          if_true, List.length_cons]
        exact Nat.succ_lt_succ hlt
      · simp only [cntAbove, List.filter_cons, decide_eq_false h2, if_false]
        by_cases h3 : keyLt k c
        · simp only [decide_eq_true h3, if_true, List.length_cons]
          exact Nat.lt_succ_of_lt hlt
        · simp only [decide_eq_false h3, if_false]
          exact hlt

theorem cntAbove_locate_lt {bs : List Key} {k : Key}
    (hne : (locateKey bs k).endKey ≠ []) :
    cntAbove (locateKey bs k).endKey bs < cntAbove k bs := by
  rcases locateKey_endKey bs k with h | ⟨h1, h2⟩
  · exact absurd h hne
  · exact cntAbove_lt h1 bs h2

/-! Range coverage of DeleteRange. -/

/-- The delete-range sub-requests of a trace, read off its send events. -/
def rawDeleteRangeReqsOf (tr : List Event) : List (Key × Key) :=
  tr.filterMap fun e =>
    match e with
    | .send (.rawDeleteRange a b) => some (a, b)
    | _ => none

/-- The sub-requests tile [s, e): each starts where the previous ended, each is
non-empty, the first starts at s and the last ends at e. -/
def chainedFrom (s e : Key) : List (Key × Key) → Prop
  | [] => s = e
  | (a, b) :: rest => a = s ∧ keyLt a b ∧ chainedFrom b e rest

theorem keyMax_eq_left {a b : Key} (h : keyLe b a) : keyMax a b = a := by
  unfold keyMax
  rw [if_neg]
  intro h2
  exact keyLt_irrefl a (keyLt_of_keyLt_of_keyLe h2 h)

theorem keyMax_eq_right {a b : Key} (h : keyLe a b) : keyMax a b = b := by
  unfold keyMax
  rcases keyLe_iff.mp h with h2 | h2
  · rw [if_pos h2]
  · subst h2; rw [if_neg (keyLt_irrefl a)]

theorem rawClamp_eq_specMinEnd (loc : KeyLocation) (endKey : Key) :
    rawClamp loc endKey = specMinEnd loc.endKey endKey := by
  unfold rawClamp specMinEnd
  cases he : loc.endKey with
  | nil => simp
  | cons x xs => simp

theorem sendDeleteRangeReq_honest (bs : List Key) (store : List (Key × Key))
    (endKey startKey : Key) (i budget : Nat) :
    sendDeleteRangeReq (honestEnv bs store) endKey startKey i budget =
      (.ok ({ rawDeleteRange := some ⟨""⟩ }, rawClamp (locateKey bs startKey) endKey),
        i + 1,
        [.locate startKey,
          .send (.rawDeleteRange startKey (rawClamp (locateKey bs startKey) endKey))]) := by
  simp [sendDeleteRangeReq, honestEnv, honestAttempt]

theorem deleteRange_honest_loop (bs : List Key) (store : List (Key × Key))
    (budget : Nat) (s0 e0 : Key) (hwf : WFLayout bs) :
    ∀ (fuel : Nat) (c : Key) (i : Nat),
      keyLe s0 c → keyLe c e0 → (c = s0 ∨ c ∈ bs ∨ c = e0) →
      ((c = e0 ∧ 1 ≤ fuel) ∨ cntAbove c bs + 2 ≤ fuel) →
      ∃ tr,
        DeleteRange (honestEnv bs store) budget fuel i c e0 = some (.ok (), tr) ∧
        chainedFrom c e0 (rawDeleteRangeReqsOf tr) ∧
        ∀ r ∈ rawDeleteRangeReqsOf tr,
          r.1 = keyMax (locateKey bs r.1).startKey s0 ∧
          r.2 = specMinEnd (locateKey bs r.1).endKey e0 := by
  intro fuel
  induction fuel with
  | zero =>
    intro c i _ _ _ h4
    rcases h4 with ⟨_, h⟩ | h <;> omega
  | succ f ih =>
    intro c i h1 h2 h3 h4
    by_cases hce : c = e0
    · subst hce
      refine ⟨[], ?_, rfl, ?_⟩
      · simp [DeleteRange]
      · intro r hr
        exact absurd hr (by simp [rawDeleteRangeReqsOf])
    · have hlt_ce : keyLt c e0 := by
        rcases keyLe_iff.mp h2 with h | h
        · exact h
        · exact absurd h hce
      have hfuel : cntAbove c bs + 2 ≤ f + 1 := by
        rcases h4 with ⟨h, _⟩ | h
        · exact absurd h hce
        · exact h
      have hcmem : c = s0 ∨ c ∈ bs := by
        rcases h3 with h | h | h
        · exact Or.inl h
        · exact Or.inr h
        · exact absurd h hce
      have hstart : c = keyMax (locateKey bs c).startKey s0 := by
        rcases hcmem with h | h
        · subst h
          exact (keyMax_eq_right (locateKey_startKey_le bs c)).symm
        · rw [locateKey_mem_startKey hwf h]
          exact (keyMax_eq_left h1).symm
      by_cases hcl : 0 < (locateKey bs c).endKey.length ∧ keyLt (locateKey bs c).endKey e0
      · -- the shard end is the effective end: the loop continues inside a later shard
        have haE : rawClamp (locateKey bs c) e0 = (locateKey bs c).endKey := by
          unfold rawClamp; rw [if_pos hcl]
        have hEne : (locateKey bs c).endKey ≠ [] := by
          intro h; rw [h] at hcl; exact absurd hcl.1 (by simp)
        have hcaE : keyLt c (locateKey bs c).endKey := by
          rcases locateKey_endKey bs c with h | ⟨h, _⟩
          · exact absurd h hEne
          · exact h
        have hmemE : (locateKey bs c).endKey ∈ bs := by
          rcases locateKey_endKey bs c with h | ⟨_, h⟩
          · exact absurd h hEne
          · exact h
        have hfuel2 : cntAbove (locateKey bs c).endKey bs + 2 ≤ f := by
          have := cntAbove_locate_lt hEne
          omega
        obtain ⟨tr2, hdr2, hchain2, hprops2⟩ :=
          ih (locateKey bs c).endKey (i + 1)
            (keyLe_trans h1 (keyLe_of_keyLt hcaE))
            (keyLe_of_keyLt hcl.2)
            (Or.inr (Or.inl hmemE))
            (Or.inr hfuel2)
        refine ⟨.locate c :: .send (.rawDeleteRange c ((locateKey bs c).endKey)) :: tr2,
          ?_, ?_, ?_⟩
        · rw [DeleteRange, if_neg hce, sendDeleteRangeReq_honest, haE]
          simp [hdr2]
        · simp only [rawDeleteRangeReqsOf, List.filterMap_cons]
          exact ⟨rfl, hcaE, hchain2⟩
        · intro r hr
          simp only [rawDeleteRangeReqsOf, List.filterMap_cons] at hr
          rcases List.mem_cons.mp hr with h | h
          · subst h
            refine ⟨hstart, ?_⟩
            rw [← rawClamp_eq_specMinEnd, haE]
          · exact hprops2 r h
      · -- the requested end is the effective end: next iteration terminates
        have haE : rawClamp (locateKey bs c) e0 = e0 := by
          unfold rawClamp; rw [if_neg hcl]
        have hfuel2 : (1 : Nat) ≤ f := by omega
        obtain ⟨tr2, hdr2, hchain2, hprops2⟩ :=
          ih e0 (i + 1) (keyLe_trans h1 h2) (keyLe_refl e0)
            (Or.inr (Or.inr rfl)) (Or.inl ⟨rfl, hfuel2⟩)
        refine ⟨.locate c :: .send (.rawDeleteRange c e0) :: tr2, ?_, ?_, ?_⟩
        · rw [DeleteRange, if_neg hce, sendDeleteRangeReq_honest, haE]
          simp [hdr2]
        · simp only [rawDeleteRangeReqsOf, List.filterMap_cons]
          exact ⟨rfl, hlt_ce, hchain2⟩
        · intro r hr
          simp only [rawDeleteRangeReqsOf, List.filterMap_cons] at hr
          rcases List.mem_cons.mp hr with h | h
          · subst h
            refine ⟨hstart, ?_⟩
            rw [← rawClamp_eq_specMinEnd, haE]
          · exact hprops2 r h

theorem chainedFrom_starts_le {e : Key} :
    ∀ (reqs : List (Key × Key)) (s : Key), chainedFrom s e reqs →
      ∀ r ∈ reqs, keyLe s r.1 := by
  intro reqs
  induction reqs with
  | nil => intro s _ r hr; exact absurd hr (List.not_mem_nil r)
  | cons p rest ih =>
    rcases p with ⟨a, b⟩
    intro s hch r hr
    obtain ⟨ha, hab, hrest⟩ := hch
    subst ha
    rcases List.mem_cons.mp hr with h | h
    · subst h; exact keyLe_refl _
    · exact keyLe_trans (keyLe_of_keyLt hab) (ih b hrest r h)

theorem chainedFrom_pairwise_lt {e : Key} :
    ∀ (reqs : List (Key × Key)) (s : Key), chainedFrom s e reqs →
      reqs.Pairwise (fun r r2 => keyLt r.1 r2.1) := by
  intro reqs
  induction reqs with
  | nil => intro s _; exact List.Pairwise.nil
  | cons p rest ih =>
    rcases p with ⟨a, b⟩
    intro s hch
    obtain ⟨ha, hab, hrest⟩ := hch
    refine List.pairwise_cons.mpr ⟨?_, ih b hrest⟩
    intro r hr
    exact keyLt_of_keyLt_of_keyLe hab (chainedFrom_starts_le rest b hrest r hr)

theorem chainedFrom_coverage {e : Key} :
    ∀ (reqs : List (Key × Key)) (s k : Key), chainedFrom s e reqs →
      keyLe s k → keyLt k e → ∃ r ∈ reqs, keyLe r.1 k ∧ keyLt k r.2 := by
  intro reqs
  induction reqs with
  | nil =>
    intro s k hch hk1 hk2
    subst hch
    exact absurd (keyLt_of_keyLe_of_keyLt hk1 hk2) (keyLt_irrefl s)
  | cons p rest ih =>
    rcases p with ⟨a, b⟩
    intro s k hch hk1 hk2
    obtain ⟨ha, hab, hrest⟩ := hch
    subst ha
    by_cases h : keyLt k b
    · exact ⟨(a, b), List.mem_cons_self _ _, hk1, h⟩
    · obtain ⟨r, hr, hr2⟩ := ih b k hrest (not_keyLt_iff.mp h) hk2
      exact ⟨r, List.mem_cons_of_mem _ hr, hr2⟩

theorem reqs_shards_distinct (bs : List Key) (s0 : Key) :
    ∀ reqs : List (Key × Key),
      reqs.Pairwise (fun r r2 => keyLt r.1 r2.1) →
      (∀ r ∈ reqs, r.1 = keyMax (locateKey bs r.1).startKey s0) →
      reqs.Pairwise (fun r r2 => locateKey bs r.1 ≠ locateKey bs r2.1) := by
  intro reqs hpw hprop
  refine hpw.imp_of_mem ?_
  intro r r2 hr hr2 hlt heq
  have h1 := hprop r hr
  have h2 := hprop r2 hr2
  rw [heq] at h1
  exact keyLt_ne hlt (h1.trans h2.symm)

/-! Claim theorems. -/

/-- C2: for every range [startKey, endKey) with startKey at or below endKey that
the locator tiles into shards in increasing key order, DeleteRange issues
exactly one delete-range sub-request per shard intersecting the range — the
issued sub-requests tile [startKey, endKey) with no gaps or overlaps (so the
cursor after the last one equals endKey and the loop terminates), each
sub-request starts at the max of its shard start and startKey and ends at the
min of its shard end and endKey (exactly the shard intersection with the
range), every key of the range falls in exactly one sub-request, and no two
sub-requests hit the same shard. -/
theorem C2_deleteRange_range_coverage (bs : List Key) (store : List (Key × Key))
    (budget : Nat) (s0 e0 : Key) (hwf : WFLayout bs) (hle : keyLe s0 e0) :
    ∃ tr,
      DeleteRange (honestEnv bs store) budget (cntAbove s0 bs + 2) 0 s0 e0 =
        some (.ok (), tr) ∧
      chainedFrom s0 e0 (rawDeleteRangeReqsOf tr) ∧
      (∀ r ∈ rawDeleteRangeReqsOf tr,
        r.1 = keyMax (locateKey bs r.1).startKey s0 ∧
        r.2 = specMinEnd (locateKey bs r.1).endKey e0) ∧
      (rawDeleteRangeReqsOf tr).Pairwise
        (fun r r2 => locateKey bs r.1 ≠ locateKey bs r2.1) ∧
      (∀ k, keyLe s0 k → keyLt k e0 →
        ∃ r ∈ rawDeleteRangeReqsOf tr, keyLe r.1 k ∧ keyLt k r.2) := by
  obtain ⟨tr, hdr, hchain, hprops⟩ :=
    deleteRange_honest_loop bs store budget s0 e0 hwf (cntAbove s0 bs + 2) s0 0
      (keyLe_refl s0) hle (Or.inl rfl) (Or.inr (Nat.le_refl _))
  refine ⟨tr, hdr, hchain, hprops, ?_, ?_⟩
  · exact reqs_shards_distinct bs s0 _ (chainedFrom_pairwise_lt _ s0 hchain)
      (fun r hr => (hprops r hr).1)
  · intro k hk1 hk2
    exact chainedFrom_coverage _ s0 k hchain hk1 hk2

/-- Witness for C2: a three-shard tiling with boundaries [1] and [2], deleting
the range from the empty key to [2, 7]. -/
theorem C2_witness :
    (WFLayout [[1], [2]] ∧ keyLe [] [2, 7]) ∧
    (∃ tr,
      DeleteRange (honestEnv [[1], [2]] []) 0 (cntAbove [] [[1], [2]] + 2) 0 [] [2, 7] =
        some (.ok (), tr) ∧
      chainedFrom [] [2, 7] (rawDeleteRangeReqsOf tr) ∧
      (∀ r ∈ rawDeleteRangeReqsOf tr,
        r.1 = keyMax (locateKey [[1], [2]] r.1).startKey [] ∧
        r.2 = specMinEnd (locateKey [[1], [2]] r.1).endKey [2, 7]) ∧
      (rawDeleteRangeReqsOf tr).Pairwise
        (fun r r2 => locateKey [[1], [2]] r.1 ≠ locateKey [[1], [2]] r2.1) ∧
      (∀ k, keyLe [] k → keyLt k [2, 7] →
        ∃ r ∈ rawDeleteRangeReqsOf tr, keyLe r.1 k ∧ keyLt k r.2)) :=
  ⟨⟨by decide, by decide⟩,
    C2_deleteRange_range_coverage [[1], [2]] [] 0 [] [2, 7] (by decide) (by decide)⟩

/-- C4: for every located shard containing the cursor and every task endKey at
or beyond the cursor, the clamp of the long-running task (take the task endKey
when the shard contains it, else the shard end) computes the same effective end
as the clamp rule of DeleteRange, namely the byte-lexicographic min of endKey
and the shard end, where an empty shard end means unbounded so endKey wins. -/
theorem C4_clamp_refinement (loc : KeyLocation) (cursor endKey : Key)
    (hcont : loc.Contains cursor = true) (hle : keyLe cursor endKey) :
    taskClamp loc endKey = rawClamp loc endKey ∧
    rawClamp loc endKey = specMinEnd loc.endKey endKey := by
  refine ⟨?_, rawClamp_eq_specMinEnd loc endKey⟩
  have hc : keyLe loc.startKey cursor ∧ (keyLt cursor loc.endKey ∨ loc.endKey = []) := by
    have h := hcont
    unfold KeyLocation.Contains at h
    simp only [Bool.and_eq_true, Bool.or_eq_true, decide_eq_true_eq,
      List.isEmpty_iff] at h
    exact h
  obtain ⟨hs, hrest⟩ := hc
  have hsk : keyLe loc.startKey endKey := keyLe_trans hs hle
  unfold taskClamp rawClamp KeyLocation.Contains
  cases hE : loc.endKey with
  | nil => simp [decide_eq_true hsk]
  | cons x xs =>
    have hcur : keyLt cursor (x :: xs) := by
      rcases hrest with h | h
      · exact hE ▸ h
      · rw [hE] at h; exact absurd h (by simp)
    rcases keyLt_or_keyLe (x :: xs) endKey with hlt | hge
    · simp [decide_eq_false (keyLt_asymm hlt), hlt]
    · rcases keyLe_iff.mp hge with hlt2 | heq
      · simp [decide_eq_true hsk, decide_eq_true hlt2, keyLt_asymm hlt2]
      · subst heq
        simp [decide_eq_false (keyLt_irrefl (x :: xs)), keyLt_irrefl]

/-- Witness for C4 at a concrete shard [1, 5) containing cursor [2], with task
endKey [9]. -/
theorem C4_witness :
    ((KeyLocation.Contains ⟨[1], [5]⟩ [2] = true) ∧ keyLe [2] [9]) ∧
    (taskClamp ⟨[1], [5]⟩ [9] = rawClamp ⟨[1], [5]⟩ [9] ∧
      rawClamp ⟨[1], [5]⟩ [9] = specMinEnd (KeyLocation.mk [1] [5]).endKey [9]) :=
  ⟨⟨by decide, by decide⟩, C4_clamp_refinement ⟨[1], [5]⟩ [2] [9] (by decide) (by decide)⟩

/-! The dispatcher retry discipline. -/

/-- The keys of the locate events of a trace, in order. -/
def locatesOf (tr : List Event) : List Key :=
  tr.filterMap fun e =>
    match e with
    | .locate k => some k
    | _ => none

/-- The number of retry-budget signals in a trace. -/
def backoffCount (tr : List Event) : Nat :=
  (tr.filter fun e => decide (e = Event.backoff)).length

/-- The shard-ownership error detail the environment answers at attempt j of a
dispatch of req keyed by key, when that attempt reaches a well-formed response. -/
def attemptRegionErr (env : Env) (key : Key) (req : Request) (j : Nat) : Option String :=
  match (env j).locate key with
  | .error _ => none
  | .ok _ =>
    match (env j).send req with
    | .error _ => none
    | .ok resp => resp.regionErr

theorem attempt_isSome_elim (env : Env) (key : Key) (req : Request) (j : Nat)
    (h : (attemptRegionErr env key req j).isSome) :
    ∃ loc resp rerr, (env j).locate key = .ok loc ∧ (env j).send req = .ok resp ∧
      resp.regionErr = some rerr ∧ attemptRegionErr env key req j = some rerr := by
  have h2 := h
  unfold attemptRegionErr at h2
  rcases hl : (env j).locate key with e | loc
  · rw [hl] at h2; simp at h2
  · rw [hl] at h2
    rcases hs : (env j).send req with e | resp
    · rw [hs] at h2; simp at h2
    · rw [hs] at h2
      simp at h2
      rcases hre : resp.regionErr with _ | rerr
      · rw [hre] at h2; simp at h2
      · refine ⟨loc, resp, rerr, rfl, rfl, hre, ?_⟩
        simp [attemptRegionErr, hl, hs, hre]

theorem locatesOf_cons_locate (k : Key) (tr : List Event) :
    locatesOf (.locate k :: tr) = k :: locatesOf tr := rfl

theorem locatesOf_cons_send (req : Request) (tr : List Event) :
    locatesOf (.send req :: tr) = locatesOf tr := rfl

theorem locatesOf_cons_backoff (tr : List Event) :
    locatesOf (.backoff :: tr) = locatesOf tr := rfl

theorem backoffCount_cons_locate (k : Key) (tr : List Event) :
    backoffCount (.locate k :: tr) = backoffCount tr := by
  simp [backoffCount, List.filter_cons]

theorem backoffCount_cons_send (req : Request) (tr : List Event) :
    backoffCount (.send req :: tr) = backoffCount tr := by
  simp [backoffCount, List.filter_cons]

theorem backoffCount_cons_backoff (tr : List Event) :
    backoffCount (.backoff :: tr) = backoffCount tr + 1 := by
  simp [backoffCount, List.filter_cons]

theorem sendReq_retries (env : Env) (key : Key) (req : Request) :
    ∀ (k i budget : Nat) (loc : KeyLocation) (resp : Response),
      (∀ j, j < k → (attemptRegionErr env key req (i + j)).isSome) →
      (env (i + k)).locate key = .ok loc →
      (env (i + k)).send req = .ok resp →
      resp.regionErr = none →
      k ≤ budget →
      ∃ tr, sendReq env key req i budget = (.ok (resp, loc), i + k + 1, tr) ∧
        locatesOf tr = List.replicate (k + 1) key ∧ backoffCount tr = k := by
  intro k
  induction k with
  | zero =>
    intro i budget loc resp _ hl hs hre _
    rw [Nat.add_zero] at hl hs
    refine ⟨[.locate key, .send req], ?_, rfl, rfl⟩
    rw [sendReq, hl, hs]
    simp [hre]
  | succ k ih =>
    intro i budget loc resp hmiss hl hs hre hkb
    have h0 : (attemptRegionErr env key req i).isSome := by
      have := hmiss 0 (Nat.succ_pos k)
      rwa [Nat.add_zero] at this
    obtain ⟨loc0, resp0, rerr, hl0, hs0, hre0, _⟩ :=
      attempt_isSome_elim env key req i h0
    cases budget with
    | zero => omega
    | succ b =>
      have hl2 : (env (i + 1 + k)).locate key = .ok loc := by
        rw [show i + 1 + k = i + (k + 1) by omega]; exact hl
      have hs2 : (env (i + 1 + k)).send req = .ok resp := by
        rw [show i + 1 + k = i + (k + 1) by omega]; exact hs
      have hmiss2 : ∀ j, j < k → (attemptRegionErr env key req (i + 1 + j)).isSome := by
        intro j hj
        have := hmiss (j + 1) (by omega)
        rw [show i + (j + 1) = i + 1 + j by omega] at this
        exact this
      obtain ⟨tr2, hrec, hloc2, hbo2⟩ :=
        ih (i + 1) b loc resp hmiss2 hl2 hs2 hre (by omega)
      rw [show i + 1 + k + 1 = i + (k + 1) + 1 by omega] at hrec
      refine ⟨.locate key :: .send req :: .backoff :: tr2, ?_, ?_, ?_⟩
      · rw [sendReq, hl0, hs0]
        simp [hre0, hrec]
      · simp [locatesOf_cons_locate, locatesOf_cons_send, locatesOf_cons_backoff, hloc2,
          List.replicate_succ]
      · simp [backoffCount_cons_locate, backoffCount_cons_send, backoffCount_cons_backoff,
          hbo2]

theorem sendReq_exhaustion (env : Env) (key : Key) (req : Request) :
    ∀ (budget i : Nat),
      (∀ j, j ≤ budget → (attemptRegionErr env key req (i + j)).isSome) →
      ∃ rerr tr,
        attemptRegionErr env key req (i + budget) = some rerr ∧
        sendReq env key req i budget = (.error rerr, i + budget + 1, tr) ∧
        locatesOf tr = List.replicate (budget + 1) key ∧
        backoffCount tr = budget + 1 := by
  intro budget
  induction budget with
  | zero =>
    intro i hmiss
    have h0 : (attemptRegionErr env key req i).isSome := by
      have := hmiss 0 (Nat.le_refl 0)
      rwa [Nat.add_zero] at this
    obtain ⟨loc0, resp0, rerr, hl0, hs0, hre0, hatt⟩ :=
      attempt_isSome_elim env key req i h0
    refine ⟨rerr, [.locate key, .send req, .backoff], ?_, ?_, rfl, rfl⟩
    · rw [Nat.add_zero]; exact hatt
    · rw [sendReq, hl0, hs0]
      simp [hre0]
  | succ b ih =>
    intro i hmiss
    have h0 : (attemptRegionErr env key req i).isSome := by
      have := hmiss 0 (Nat.zero_le _)
      rwa [Nat.add_zero] at this
    obtain ⟨loc0, resp0, rerr, hl0, hs0, hre0, _⟩ :=
      attempt_isSome_elim env key req i h0
    have hmiss2 : ∀ j, j ≤ b → (attemptRegionErr env key req (i + 1 + j)).isSome := by
      intro j hj
      have := hmiss (j + 1) (by omega)
      rw [show i + (j + 1) = i + 1 + j by omega] at this
      exact this
    obtain ⟨rerr2, tr2, hatt, hrec, hloc2, hbo2⟩ := ih (i + 1) hmiss2
    rw [show i + 1 + b + 1 = i + (b + 1) + 1 by omega] at hrec
    refine ⟨rerr2, .locate key :: .send req :: .backoff :: tr2, ?_, ?_, ?_, ?_⟩
    · rw [show i + (b + 1) = i + 1 + b by omega]; exact hatt
    · rw [sendReq, hl0, hs0]
      simp [hre0, hrec]
    · simp [locatesOf_cons_locate, locatesOf_cons_send, locatesOf_cons_backoff, hloc2,
        List.replicate_succ]
    · simp [backoffCount_cons_locate, backoffCount_cons_send, backoffCount_cons_backoff,
        hbo2]

/-- C3: in the dispatcher loop sendReq, a shard-ownership error on attempt k
signals the retry budget and, when the budget permits, leads to a fresh locate
of the same key on attempt k+1 — a run with k misses below the exhaustion point
shows k backoff signals and k+1 locates, all of the same key, ending in the
clean response; once the budget is exhausted the call returns the terminal
error carrying the last shard-error detail and performs no further locate; a
locator failure or a transport failure propagates immediately, with no backoff
signal and no retry. -/
theorem C3_dispatcher_retry (env : Env) (key : Key) (req : Request) :
    (∀ budget e, (env 0).locate key = .error e →
      sendReq env key req 0 budget = (.error e, 1, [.locate key])) ∧
    (∀ budget loc e, (env 0).locate key = .ok loc → (env 0).send req = .error e →
      sendReq env key req 0 budget = (.error e, 1, [.locate key, .send req])) ∧
    (∀ k budget loc resp,
      (∀ j, j < k → (attemptRegionErr env key req j).isSome) →
      (env k).locate key = .ok loc → (env k).send req = .ok resp →
      resp.regionErr = none → k ≤ budget →
      ∃ tr, sendReq env key req 0 budget = (.ok (resp, loc), k + 1, tr) ∧
        locatesOf tr = List.replicate (k + 1) key ∧ backoffCount tr = k) ∧
    (∀ budget,
      (∀ j, j ≤ budget → (attemptRegionErr env key req j).isSome) →
      ∃ rerr tr, attemptRegionErr env key req budget = some rerr ∧
        sendReq env key req 0 budget = (.error rerr, budget + 1, tr) ∧
        locatesOf tr = List.replicate (budget + 1) key ∧
        backoffCount tr = budget + 1) := by
  refine ⟨?_, ?_, ?_, ?_⟩
  · intro budget e hl
    rw [sendReq, hl]
  · intro budget loc e hl hs
    rw [sendReq, hl, hs]
  · intro k budget loc resp hmiss hl hs hre hkb
    have h := sendReq_retries env key req k 0 budget loc resp
      (by intro j hj; rw [Nat.zero_add]; exact hmiss j hj)
      (by rw [Nat.zero_add]; exact hl) (by rw [Nat.zero_add]; exact hs) hre hkb
    rwa [Nat.zero_add] at h
  · intro budget hmiss
    have h := sendReq_exhaustion env key req budget 0
      (by intro j hj; rw [Nat.zero_add]; exact hmiss j hj)
    rwa [Nat.zero_add] at h

/-- A concrete environment for the C3 witness: a shard miss on attempt 0, then a
clean response from attempt 1 on. -/
def c3Env : Env := fun i =>
  { locate := fun _ => .ok ⟨[], []⟩
  , send := fun _ => if i = 0 then .ok { regionErr := some "miss" } else .ok {} }

/-- Witness for C3: one shard miss then success, with budget 1. -/
theorem C3_witness :
    ((∀ j, j < 1 → (attemptRegionErr c3Env [7] (.rawGet [7]) j).isSome) ∧
      (c3Env 1).locate [7] = .ok ⟨[], []⟩ ∧
      (c3Env 1).send (.rawGet [7]) = .ok {} ∧
      ({} : Response).regionErr = none ∧ 1 ≤ 1) ∧
    (∃ tr,
      sendReq c3Env [7] (.rawGet [7]) 0 1 = (.ok (({} : Response), ⟨[], []⟩), 1 + 1, tr) ∧
      locatesOf tr = List.replicate (1 + 1) [7] ∧ backoffCount tr = 1) := by
  have h1 : ∀ j, j < 1 → (attemptRegionErr c3Env [7] (.rawGet [7]) j).isSome := by
    intro j hj
    have hj0 : j = 0 := by omega
    subst hj0
    rfl
  exact ⟨⟨h1, rfl, rfl, rfl, Nat.le_refl 1⟩,
    (C3_dispatcher_retry c3Env [7] (.rawGet [7])).2.2.1 1 1 ⟨[], []⟩ {} h1 rfl rfl rfl
      (Nat.le_refl 1)⟩

/-! Local validations and single-key semantics. -/

theorem sendReq_trace_locate_head (env : Env) (key : Key) (req : Request)
    (i budget : Nat) :
    ∃ rest, (sendReq env key req i budget).2.2 = .locate key :: rest := by
  rcases hl : (env i).locate key with e | loc
  · exact ⟨[], by rw [sendReq, hl]⟩
  · rcases hsend : (env i).send req with e | resp
    · exact ⟨[.send req], by rw [sendReq, hl, hsend]⟩
    · rcases hre : resp.regionErr with _ | rerr
      · refine ⟨[.send req], ?_⟩
        rw [sendReq, hl, hsend]
        simp [hre]
      · cases budget with
        | zero =>
          refine ⟨[.send req, .backoff], ?_⟩
          rw [sendReq, hl, hsend]
          simp [hre]
        | succ b =>
          refine ⟨.send req :: .backoff :: (sendReq env key req (i + 1) b).2.2, ?_⟩
          rw [sendReq, hl, hsend]
          simp [hre]

theorem Put_trace (env : Env) (budget : Nat) (key value : Key)
    (hv : ¬ value.length = 0) :
    (Put env budget key value).2 = (sendReq env key (.rawPut key value) 0 budget).2.2 := by
  rw [Put, if_neg hv]
  rcases sendReq env key (.rawPut key value) 0 budget with ⟨res, i2, tr⟩
  rcases res with e | ⟨resp, loc⟩
  · rfl
  · rcases hbody : resp.rawPut with _ | cmdResp
    · simp [hbody]
    · by_cases he : cmdResp.error ≠ ""
      · simp [hbody, he]
      · simp [hbody, he]

/-- C7: for every startKey and every limit strictly greater than
MaxRawKVScanLimit, Scan returns the validation error ErrMaxScanLimitExceeded
immediately, with an empty interaction trace: no locate and no send. -/
theorem C7_scan_limit_boundary (env : Env) (budget fuel : Nat) (startKey : Key)
    (limit : Int) (hlim : MaxRawKVScanLimit < limit) :
    Scan env budget fuel startKey limit = some (.error ErrMaxScanLimitExceeded, []) := by
  rw [Scan, if_pos hlim]

/-- Witness for C7 at limit 10241. -/
theorem C7_witness :
    MaxRawKVScanLimit < (10241 : Int) ∧
    Scan (honestEnv [] []) 0 5 [1] 10241 = some (.error ErrMaxScanLimitExceeded, []) :=
  ⟨by decide, C7_scan_limit_boundary (honestEnv [] []) 0 5 [1] 10241 (by decide)⟩

/-- C10: for every startKey and every limit at most zero (negative included),
Scan returns empty key and value lists with no error and an empty interaction
trace: no locate and no send. -/
theorem C10_scan_nonpositive_limit (env : Env) (budget fuel : Nat) (startKey : Key)
    (limit : Int) (hlim : limit ≤ 0) (hfuel : 1 ≤ fuel) :
    Scan env budget fuel startKey limit = some (.ok ([], []), []) := by
  rw [Scan, if_neg (by unfold MaxRawKVScanLimit; omega)]
  cases fuel with
  | zero => omega
  | succ f =>
    rw [scanLoop, if_neg (by intro hcon; simp at hcon; omega)]

/-- Witness for C10 at limit -1. -/
theorem C10_witness :
    ((-1 : Int) ≤ 0 ∧ 1 ≤ 5) ∧
    Scan (honestEnv [] []) 0 5 [1] (-1) = some (.ok ([], []), []) :=
  ⟨⟨by decide, by decide⟩,
    C10_scan_nonpositive_limit (honestEnv [] []) 0 5 [1] (-1) (by decide) (by decide)⟩

/-- C8: Put with a zero-length value returns the local validation error with an
empty interaction trace (no locate, no send); with any non-empty value it
proceeds to dispatch, the first interaction being a locate of the key. -/
theorem C8_put_empty_value (env : Env) (budget : Nat) (key value : Key) :
    (value = [] →
      Put env budget key value = (.error "empty value is not supported", [])) ∧
    (value ≠ [] → ∃ rest, (Put env budget key value).2 = Event.locate key :: rest) := by
  constructor
  · intro hv
    subst hv
    rfl
  · intro hv
    obtain ⟨rest, hrest⟩ := sendReq_trace_locate_head env key (.rawPut key value) 0 budget
    refine ⟨rest, ?_⟩
    rw [Put_trace env budget key value (by simpa using hv)]
    exact hrest

/-- Witness for C8 at key [3], empty and non-empty values. -/
theorem C8_witness :
    (([] : Key) = [] ∧
      Put (honestEnv [] []) 0 [3] [] = (.error "empty value is not supported", [])) ∧
    (([9] : Key) ≠ [] ∧
      ∃ rest, (Put (honestEnv [] []) 0 [3] [9]).2 = Event.locate [3] :: rest) :=
  ⟨⟨rfl, (C8_put_empty_value (honestEnv [] []) 0 [3] []).1 rfl⟩,
    ⟨by decide, (C8_put_empty_value (honestEnv [] []) 0 [3] [9]).2 (by decide)⟩⟩

/-- C9: when the dispatched response is well-formed, carries no application
error string and has an empty value payload, Get returns the not-found result —
no value together with no error (ok none) — distinguishable by constructor from
an application error. -/
theorem C9_get_miss (env : Env) (budget : Nat) (key : Key) (loc : KeyLocation)
    (resp : Response)
    (hl : (env 0).locate key = .ok loc)
    (hsend : (env 0).send (.rawGet key) = .ok resp)
    (hre : resp.regionErr = none)
    (hbody : resp.rawGet = some ⟨"", []⟩) :
    Get env budget key = (.ok none, [.locate key, .send (.rawGet key)]) := by
  rw [Get, sendReq, hl, hsend]
  simp [hre, hbody]

/-- A concrete environment for the C9 witness: a well-formed empty-payload
response with no application error. -/
def c9Env : Env := fun _ =>
  { locate := fun _ => .ok ⟨[], []⟩
  , send := fun _ => .ok { rawGet := some ⟨"", []⟩ } }

/-- Witness for C9 at key [4]. -/
theorem C9_witness :
    ((c9Env 0).locate [4] = .ok ⟨[], []⟩ ∧
      (c9Env 0).send (.rawGet [4]) = .ok { rawGet := some ⟨"", []⟩ } ∧
      Response.regionErr { rawGet := some ⟨"", []⟩ } = none ∧
      Response.rawGet { rawGet := some ⟨"", []⟩ } = some ⟨"", []⟩) ∧
    Get c9Env 3 [4] = (.ok none, [.locate [4], .send (.rawGet [4])]) :=
  ⟨⟨rfl, rfl, rfl, rfl⟩,
    C9_get_miss c9Env 3 [4] ⟨[], []⟩ { rawGet := some ⟨"", []⟩ } rfl rfl rfl rfl⟩

/-! Application-level errors. -/

/-- A task environment whose store answers the delete-range request of the task
with the application error string boom. -/
def c5TaskEnv : TaskEnv := fun _ =>
  { ctxDone := false
  , att := { locate := fun _ => .ok ⟨[], []⟩
           , send := fun _ => .ok { deleteRange := some ⟨"boom"⟩ } } }

/-- C5 as stated is false on the long-running task: with the store answering
the application error boom, Execute surfaces a wrapped message, not the
verbatim string. -/
theorem C5_counterexample :
    DeleteRangeTask.Execute c5TaskEnv 3 0 (NewDeleteRangeTask [] [5]) =
      some (.error ("unexpected delete range err: " ++ "boom")) ∧
    "unexpected delete range err: " ++ "boom" ≠ "boom" := by
  exact ⟨rfl, by decide⟩

/-- C5 amended: a well-formed response carrying a non-empty application error
string s yields, with no retry, an error whose message is exactly s for Get,
Put, Delete and DeleteRange (trace: one locate, one send, no backoff), while
the long-running task also propagates it immediately and unretried but wraps
the message as: unexpected delete range err: s. -/
theorem C5_application_error (s : String) (hne : s ≠ "") :
    (∀ env budget key loc resp v, (env 0).locate key = .ok loc →
      (env 0).send (.rawGet key) = .ok resp → resp.regionErr = none →
      resp.rawGet = some ⟨s, v⟩ →
      Get env budget key = (.error s, [.locate key, .send (.rawGet key)])) ∧
    (∀ env budget key value loc resp, value.length ≠ 0 →
      (env 0).locate key = .ok loc →
      (env 0).send (.rawPut key value) = .ok resp → resp.regionErr = none →
      resp.rawPut = some ⟨s⟩ →
      Put env budget key value = (.error s, [.locate key, .send (.rawPut key value)])) ∧
    (∀ env budget key loc resp, (env 0).locate key = .ok loc →
      (env 0).send (.rawDelete key) = .ok resp → resp.regionErr = none →
      resp.rawDelete = some ⟨s⟩ →
      Delete env budget key = (.error s, [.locate key, .send (.rawDelete key)])) ∧
    (∀ env budget fuel startKey endKey loc resp, startKey ≠ endKey →
      (env 0).locate startKey = .ok loc →
      (env 0).send (.rawDeleteRange startKey (rawClamp loc endKey)) = .ok resp →
      resp.regionErr = none → resp.rawDeleteRange = some ⟨s⟩ →
      DeleteRange env budget (fuel + 1) 0 startKey endKey =
        some (.error s,
          [.locate startKey, .send (.rawDeleteRange startKey (rawClamp loc endKey))])) ∧
    (∀ env fuel budget t loc resp, (env 0).ctxDone = false →
      (env 0).att.locate t.startKey = .ok loc →
      (env 0).att.send (.deleteRange t.startKey (taskClamp loc t.endKey)) = .ok resp →
      resp.regionErr = none → resp.deleteRange = some ⟨s⟩ →
      DeleteRangeTask.Execute env (fuel + 1) budget t =
        some (.error ("unexpected delete range err: " ++ s))) := by
  refine ⟨?_, ?_, ?_, ?_, ?_⟩
  · intro env budget key loc resp v hl hsend hre hbody
    rw [Get, sendReq, hl, hsend]
    simp [hre, hbody, hne]
  · intro env budget key value loc resp hv hl hsend hre hbody
    rw [Put, if_neg hv, sendReq, hl, hsend]
    simp [hre, hbody, hne]
  · intro env budget key loc resp hl hsend hre hbody
    rw [Delete, sendReq, hl, hsend]
    simp [hre, hbody, hne]
  · intro env budget fuel startKey endKey loc resp hs hl hsend hre hbody
    rw [DeleteRange, if_neg hs, sendDeleteRangeReq, hl]
    simp only []
    rw [hsend]
    simp [hre, hbody, hne]
  · intro env fuel budget t loc resp hdone hl hsend hre hbody
    rw [DeleteRangeTask.Execute, executeLoop, hdone]
    simp only [Bool.false_eq_true, if_false]
    rw [hl]
    simp only []
    rw [hsend]
    simp [hre, hbody, hne]

/-- An environment for the C5 witness whose responses all carry the
application error string boom. -/
def c5Env : Env := fun _ =>
  { locate := fun _ => .ok ⟨[], []⟩
  , send := fun _ => .ok { rawGet := some ⟨"boom", [1]⟩ } }

/-- Witness for C5 amended, exercising the Get part with error string boom. -/
theorem C5_witness :
    (("boom" : String) ≠ "" ∧
      (c5Env 0).locate [2] = .ok ⟨[], []⟩ ∧
      (c5Env 0).send (.rawGet [2]) = .ok { rawGet := some ⟨"boom", [1]⟩ } ∧
      Response.regionErr { rawGet := some ⟨"boom", [1]⟩ } = none ∧
      Response.rawGet { rawGet := some ⟨"boom", [1]⟩ } = some ⟨"boom", [1]⟩) ∧
    Get c5Env 0 [2] = (.error "boom", [.locate [2], .send (.rawGet [2])]) :=
  ⟨⟨by decide, rfl, rfl, rfl, rfl⟩,
    (C5_application_error "boom" (by decide)).1 c5Env 0 [2] ⟨[], []⟩
      { rawGet := some ⟨"boom", [1]⟩ } [1] rfl rfl rfl rfl⟩

/-! The cancellation scenario of the long-running task. -/

/-- The task environment of the C1 scenario: a three-shard tiling with
boundaries [1] and [2], an honest store, and a cancellation signal that fires
after the first loop pass. -/
def c1Env : TaskEnv := fun i =>
  { ctxDone := decide (1 ≤ i)
  , att := honestAttempt [[1], [2]] [] }

/-- The C1 task: delete from the empty key to [3], a range spanning all three
shards of the c1Env tiling. -/
def c1Task : DeleteRangeTask := NewDeleteRangeTask [] [3]

/-- C1 uncovers a code bug: in the three-shard scenario with cancellation after
the first shard, the loop copy of the task records one affected shard and the
cancellation and Execute returns no error — but Execute takes its receiver by
value, so those updates happen on a discarded copy and the caller observes
Regions() = 0 and IsCanceled() = false on the task it holds, where the claim
(and the doc comment of DeleteRangeTask) promise 1 and true. -/
theorem C1_cancellation_lost :
    executeLoop c1Env c1Task.endKey 5 0 2 c1Task c1Task.startKey =
      some (.ok (), { c1Task with regions := 1, canceled := true }) ∧
    DeleteRangeTask.Execute c1Env 5 2 c1Task = some (.ok ()) ∧
    c1Task.Regions = 0 ∧ c1Task.IsCanceled = false :=
  ⟨rfl, rfl, rfl, rfl⟩

/-! Scan ordering. -/

theorem sendReq_honest_scan (bs : List Key) (store : List (Key × Key))
    (k : Key) (n : Nat) (i budget : Nat) :
    sendReq (honestEnv bs store) k (.rawScan k n) i budget =
      (.ok ({ rawScan := some ⟨shardScanPairs bs store k n⟩ }, locateKey bs k), i + 1,
        [.locate k, .send (.rawScan k n)]) := by
  simp [sendReq, honestEnv, honestAttempt]

theorem shardScanPairs_sorted (bs : List Key) (store : List (Key × Key))
    (hst : (store.map Prod.fst).Pairwise keyLt) (s : Key) (n : Nat) :
    ((shardScanPairs bs store s n).map Prod.fst).Pairwise keyLt := by
  have hsub : List.Sublist (shardScanPairs bs store s n) store := by
    unfold shardScanPairs
    exact (List.take_sublist _ _).trans (List.filter_sublist _)
  exact hst.sublist (hsub.map Prod.fst)

theorem shardScanPairs_length (bs : List Key) (store : List (Key × Key))
    (s : Key) (n : Nat) : (shardScanPairs bs store s n).length ≤ n := by
  unfold shardScanPairs
  rw [List.length_take]
  exact Nat.min_le_left _ _

theorem shardScanPairs_mem {bs : List Key} {store : List (Key × Key)} {s : Key}
    {n : Nat} {p : Key × Key} (hp : p ∈ shardScanPairs bs store s n) :
    keyLe s p.1 ∧ ((locateKey bs s).endKey = [] ∨ keyLt p.1 (locateKey bs s).endKey) := by
  unfold shardScanPairs at hp
  have hp2 := List.take_subset _ _ hp
  have hp3 := (List.mem_filter.mp hp2).2
  simp only [Bool.and_eq_true, Bool.or_eq_true, decide_eq_true_eq,
    List.isEmpty_iff] at hp3
  exact ⟨hp3.1, hp3.2⟩

theorem scanLoop_honest_spec (bs : List Key) (store : List (Key × Key)) (budget : Nat)
    (limit : Int) (hwf : WFLayout bs) (hst : (store.map Prod.fst).Pairwise keyLt)
    (hlim : limit ≤ MaxRawKVScanLimit) :
    ∀ (fuel : Nat) (c : Key) (i : Nat) (ks vs : List Key),
      cntAbove c bs + 1 ≤ fuel →
      ks.Pairwise keyLt → (∀ x ∈ ks, keyLt x c) →
      ∃ ks2 vs2 tr,
        scanLoop (honestEnv bs store) budget limit fuel i c ks vs =
          some (.ok (ks2, vs2), tr) ∧
        ks2.Pairwise keyLt ∧ ks2.length ≤ max limit.toNat ks.length := by
  intro fuel
  induction fuel with
  | zero => intro c i ks vs hf _ _; omega
  | succ f ih =>
    intro c i ks vs hf hks hbound
    by_cases hcond : (ks.length : Int) < limit
    · have h32 : (2 : Int) ^ 32 = 4294967296 := by norm_num
      have hlim2 : limit ≤ 10240 := hlim
      have hmod : (limit - (ks.length : Int)) % (2 ^ 32 : Int) =
          limit - (ks.length : Int) := by
        rw [Int.emod_eq_of_lt (by omega) (by omega)]
      simp only [scanLoop, if_pos hcond]
      rw [sendReq_honest_scan]
      set n := ((limit - (ks.length : Int)) % (2 ^ 32 : Int)).toNat with hn
      have hnval : ((n : Int)) = limit - (ks.length : Int) := by
        rw [hn, hmod, Int.toNat_of_nonneg (by omega)]
      set pairs := shardScanPairs bs store c n with hpairs
      have hple : pairs.length ≤ n := shardScanPairs_length bs store c n
      have hlen_new : (ks ++ pairs.map Prod.fst).length ≤ limit.toNat := by
        rw [List.length_append, List.length_map]
        omega
      have hpw_new : (ks ++ pairs.map Prod.fst).Pairwise keyLt := by
        rw [List.pairwise_append]
        refine ⟨hks, shardScanPairs_sorted bs store hst c n, ?_⟩
        intro x hx y hy
        obtain ⟨p, hpmem, hpeq⟩ := List.mem_map.mp hy
        have hple2 := (shardScanPairs_mem hpmem).1
        exact keyLt_of_keyLt_of_keyLe (hbound x hx) (hpeq ▸ hple2)
      by_cases hE : (locateKey bs c).endKey.length = 0
      · refine ⟨ks ++ pairs.map Prod.fst, vs ++ pairs.map Prod.snd,
          [.locate c, .send (.rawScan c n)], ?_, hpw_new, ?_⟩
        · simp [hE]
        · exact hlen_new.trans (Nat.le_max_left _ _)
      · have hEne : (locateKey bs c).endKey ≠ [] := by
          intro h; rw [h] at hE; simp at hE
        have hcE : keyLt c (locateKey bs c).endKey := by
          rcases locateKey_endKey bs c with h | ⟨h, _⟩
          · exact absurd h hEne
          · exact h
        have hfuel2 : cntAbove (locateKey bs c).endKey bs + 1 ≤ f := by
          have := cntAbove_locate_lt hEne
          omega
        have hbound_new : ∀ y ∈ ks ++ pairs.map Prod.fst,
            keyLt y (locateKey bs c).endKey := by
          intro y hy
          rcases List.mem_append.mp hy with h | h
          · exact keyLt_trans y c _ (hbound y h) hcE
          · obtain ⟨p, hpmem, hpeq⟩ := List.mem_map.mp h
            rcases (shardScanPairs_mem hpmem).2 with h2 | h2
            · exact absurd h2 hEne
            · exact hpeq ▸ h2
        obtain ⟨ks3, vs3, tr3, hrec, hpw3, hlen3⟩ :=
          ih (locateKey bs c).endKey (i + 1) (ks ++ pairs.map Prod.fst)
            (vs ++ pairs.map Prod.snd) hfuel2 hpw_new hbound_new
        refine ⟨ks3, vs3, .locate c :: .send (.rawScan c n) :: tr3, ?_, hpw3, ?_⟩
        · simp [hE, hrec]
        · have := Nat.le_max_left limit.toNat ks.length
          omega
    · refine ⟨ks, vs, [], ?_, hks, Nat.le_max_right _ _⟩
      rw [scanLoop, if_neg hcond]

/-- C6: against a well-formed shard tiling and a store whose pairs are served in
strictly increasing key order shard by shard, Scan with a limit within the
allowed maximum terminates — within one loop pass per shard at or after the
start key, stopping when the accumulator reaches the limit or the serving
shard has an empty endKey — and returns keys in strictly increasing byte order,
never more than the limit. -/
theorem C6_scan_ordering (bs : List Key) (store : List (Key × Key)) (budget : Nat)
    (startKey : Key) (limit : Int) (hwf : WFLayout bs)
    (hst : (store.map Prod.fst).Pairwise keyLt) (hlim : limit ≤ MaxRawKVScanLimit) :
    ∃ ks vs tr,
      Scan (honestEnv bs store) budget (cntAbove startKey bs + 1) startKey limit =
        some (.ok (ks, vs), tr) ∧
      ks.Pairwise keyLt ∧ ks.length ≤ limit.toNat := by
  obtain ⟨ks, vs, tr, heq, hpw, hlen⟩ :=
    scanLoop_honest_spec bs store budget limit hwf hst hlim (cntAbove startKey bs + 1)
      startKey 0 [] [] (Nat.le_refl _) List.Pairwise.nil (by intro x hx; cases hx)
  refine ⟨ks, vs, tr, ?_, hpw, ?_⟩
  · rw [Scan, if_neg (not_lt.mpr hlim)]
    exact heq
  · simpa using hlen

/-- Witness for C6: three shards, a three-pair store, limit 2. -/
theorem C6_witness :
    (WFLayout [[1], [2]] ∧
      (([([0], [5]), ([1], [6]), ([3], [7])] : List (Key × Key)).map
        Prod.fst).Pairwise keyLt ∧
      (2 : Int) ≤ MaxRawKVScanLimit) ∧
    (∃ ks vs tr,
      Scan (honestEnv [[1], [2]] [([0], [5]), ([1], [6]), ([3], [7])]) 0
          (cntAbove [] [[1], [2]] + 1) [] 2 =
        some (.ok (ks, vs), tr) ∧
      ks.Pairwise keyLt ∧ ks.length ≤ (2 : Int).toNat) :=
  ⟨⟨by decide, by decide, by decide⟩,
    C6_scan_ordering [[1], [2]] [([0], [5]), ([1], [6]), ([3], [7])] 0 [] 2
      (by decide) (by decide) (by decide)⟩

end TikvRawkv
